import Mathlib

/-!
Verification of the bag-of-words pipeline in
`docs/psets/starter_code/spam_bag_of_words.py`.

Strings are embedded as lists of Unicode code points (`List Nat`); a token is
such a list.  The regular expressions used by `tokenize` are embedded as
dedicated left-to-right scanners that mirror the semantics of Python's
`re.sub`/`re.findall` on the three concrete patterns in the source
(leftmost match, first alternative preferred, greedy repetition, word
boundaries for the email pattern).  ASCII character classes are used, matching
the ASCII fragment of Python's `\w`, `\d`, `\s`.
-/

/-- Code points of a string literal. -/
def strCodes (s : String) : List Nat := s.toList.map Char.toNat

/-- ASCII alphabetic, the class `[a-zA-Z]` of `TOKEN_RE`. -/
def isAlphaN (n : Nat) : Bool := (97 ≤ n && n ≤ 122) || (65 ≤ n && n ≤ 90)

/-- ASCII digit, the class `\d`. -/
def isDigitN (n : Nat) : Bool := 48 ≤ n && n ≤ 57

/-- ASCII word character, the class `\w` (letters, digits, underscore). -/
def isWordN (n : Nat) : Bool := isAlphaN n || isDigitN n || n == 95

/-- The character class `[\w\.-]` of the email pattern. -/
def isClassN (n : Nat) : Bool := isWordN n || n == 46 || n == 45

/-- ASCII whitespace, the class `\s`; `\S` is its negation. -/
def isSpaceN (n : Nat) : Bool := n == 32 || n == 9 || n == 10 || n == 13 || n == 11 || n == 12

/-- Non-space, the class `\S`. -/
def isNonSpaceN (n : Nat) : Bool := !isSpaceN n

/-- Word-character test for an optional character (`none` = out of bounds,
which counts as a non-word position for `\b`). -/
def isWordOpt : Option Nat → Bool
  | none => false
  | some n => isWordN n

/-- ASCII lower-casing of one code point, as done by `text.lower()`. -/
def lowerN (n : Nat) : Nat := if 65 ≤ n && n ≤ 90 then n + 32 else n

/-- Match of `https?://\S+` at the head of the list (first alternative of the
URL pattern): returns the length of the match. -/
def tryHttp (l : List Nat) : Option Nat :=
  if l.take 8 = [104, 116, 116, 112, 115, 58, 47, 47] then
    let k := ((l.drop 8).takeWhile isNonSpaceN).length
    if k = 0 then none else some (8 + k)
  else if l.take 7 = [104, 116, 116, 112, 58, 47, 47] then
    let k := ((l.drop 7).takeWhile isNonSpaceN).length
    if k = 0 then none else some (7 + k)
  else none

/-- Match of `www\.\S+` at the head of the list (second alternative). -/
def tryWww (l : List Nat) : Option Nat :=
  if l.take 4 = [119, 119, 119, 46] then
    let k := ((l.drop 4).takeWhile isNonSpaceN).length
    if k = 0 then none else some (4 + k)
  else none

/-- Match of `https?://\S+|www\.\S+` at the head of the list. -/
def matchURLAt (l : List Nat) : Option Nat :=
  match tryHttp l with
  | some n => some n
  | none => tryWww l

/-- Backtracking search for the end of the second `[\w\.-]+` run of the email
pattern: given the run reversed and the character following it, return the
longest nonempty prefix of the run whose end satisfies `\b`. -/
def findKrev : List Nat → Option Nat → Option Nat
  | [], _ => none
  | c :: rs, after => if isWordN c != isWordOpt after then some (rs.length + 1) else findKrev rs (some c)

/-- Match of `\b[\w\.-]+@[\w\.-]+\b` at the head of the list, given the
character preceding the current position (for the leading `\b`). -/
def matchEmailAt (prev : Option Nat) (l : List Nat) : Option Nat :=
  match l with
  | [] => none
  | c :: _ =>
    if isClassN c && (isWordOpt prev != isWordN c) then
      if ((l.dropWhile isClassN).head? = some 64) then
        match findKrev (((l.dropWhile isClassN).tail.takeWhile isClassN).reverse)
            (((l.dropWhile isClassN).tail.dropWhile isClassN).head?) with
        | some k => some ((l.takeWhile isClassN).length + 1 + k)
        | none => none
      else none
    else none

/-- Match of `\d+(?:\.\d+)?` at the head of the list. -/
def matchNumAt (l : List Nat) : Option Nat :=
  match l with
  | [] => none
  | c :: _ =>
    if isDigitN c then
      let d1 := (l.takeWhile isDigitN).length
      match l.drop d1 with
      | x :: r2 =>
        if x = 46 then
          let d2 := (r2.takeWhile isDigitN).length
          if d2 = 0 then some d1 else some (d1 + 1 + d2)
        else some d1
      | [] => some d1
    else none

/-- Driver for `re.sub`: scan left to right, replacing each match and resuming
after it; `prev` is the original character before the scan position (used by
`\b`).  `fuel` bounds the recursion and is instantiated with the input length,
which always suffices since every match consumes at least one character. -/
def subMatcherFuel (m : Option Nat → List Nat → Option Nat) (repl : List Nat) :
    Nat → Option Nat → List Nat → List Nat
  | 0, _, l => l
  | fuel + 1, prev, l =>
    match m prev l with
    | some n => repl ++ subMatcherFuel m repl fuel (some (l.getD (n - 1) 0)) (l.drop n)
    | none =>
      match l with
      | [] => []
      | c :: cs => c :: subMatcherFuel m repl fuel (some c) cs

/-- `re.sub(r"https?://\S+|www\.\S+", " URL ", text)`. -/
def subUrl (l : List Nat) : List Nat :=
  subMatcherFuel (fun _ l' => matchURLAt l') (strCodes " URL ") l.length none l

/-- `re.sub(r"\b[\w\.-]+@[\w\.-]+\b", " EMAIL ", text)`. -/
def subEmail (l : List Nat) : List Nat :=
  subMatcherFuel matchEmailAt (strCodes " EMAIL ") l.length none l

/-- `re.sub(r"\d+(?:\.\d+)?", " NUM ", text)`. -/
def subNum (l : List Nat) : List Nat :=
  subMatcherFuel (fun _ l' => matchNumAt l') (strCodes " NUM ") l.length none l

/-- `TOKEN_RE.findall`: collect the maximal runs of alphabetic characters of
length at least 2; `cur` is the current run, reversed. -/
def findallGo (cur : List Nat) : List Nat → List (List Nat)
  | [] => if 2 ≤ cur.length then [cur.reverse] else []
  | c :: cs =>
    if isAlphaN c then findallGo (c :: cur) cs
    else (if 2 ≤ cur.length then [cur.reverse] else []) ++ findallGo [] cs

/-- `re.findall(r"[a-zA-Z]{2,}", text)`. -/
def findallTokens (l : List Nat) : List (List Nat) := findallGo [] l

/-- The `tokenize` function of the source: lower-case, substitute URLs, then
emails, then numbers, then extract alphabetic runs of length at least 2. -/
def tokenize (l : List Nat) : List (List Nat) :=
  findallTokens (subNum (subEmail (subUrl (l.map lowerN))))

/-- `tokenize` applied to a string literal. -/
def tokenizeStr (s : String) : List (List Nat) := tokenize (strCodes s)

/-- Whether the text contains two consecutive alphabetic characters (the
condition for `TOKEN_RE` to have any match). -/
def hasTwoConsecAlpha : List Nat → Bool
  | a :: b :: rest => (isAlphaN a && isAlphaN b) || hasTwoConsecAlpha (b :: rest)
  | _ => false

/-- Number of occurrences of a token in a token list. -/
def occ (t : List Nat) : List (List Nat) → Nat
  | [] => 0
  | u :: us => (if u = t then 1 else 0) + occ t us

/-!
Archive extraction (`_is_within_directory`, `safe_extract_tar`, `extract`).
Paths are embedded as lists of characters; all paths involved are absolute, so
`os.path.abspath` is `os.path.normpath` (split on `/`, drop empty and `.`
components, resolve `..` against the accumulated components).
-/

/-- Characters of a string literal. -/
def chars (s : String) : List Char := s.toList

/-- Split a path into components at `/` (`cur` is the current component,
reversed). -/
def splitSlashGo (cur : List Char) : List Char → List (List Char)
  | [] => [cur.reverse]
  | c :: cs => if c = '/' then cur.reverse :: splitSlashGo [] cs else splitSlashGo (c :: cur) cs

/-- All components of a path, split at `/`. -/
def splitSlash (l : List Char) : List (List Char) := splitSlashGo [] l

/-- Normalisation of the component list of an absolute path, as in
`os.path.normpath`: drop empty and `.` components, pop on `..` (a `..` above
the root is dropped).  `acc` holds the kept components, reversed. -/
def normComps (acc : List (List Char)) : List (List Char) → List (List Char)
  | [] => acc.reverse
  | c :: cs =>
    if c = [] ∨ c = ['.'] then normComps acc cs
    else if c = ['.', '.'] then normComps acc.tail cs
    else normComps (c :: acc) cs

/-- `os.path.abspath` on an absolute path: normalise and re-render. -/
def absNorm (p : List Char) : List Char :=
  '/' :: List.intercalate ['/'] (normComps [] (splitSlash p))

/-- `os.path.join(base, m)`: `m` alone when `m` is absolute, otherwise
`base + "/" + m`. -/
def joinPath (base m : List Char) : List Char :=
  if m.head? = some '/' then m else base ++ '/' :: m

/-- `os.path.commonprefix` of two strings: their longest common character
prefix. -/
def commonPref : List Char → List Char → List Char
  | a :: as, b :: bs => if a = b then a :: commonPref as bs else []
  | _, _ => []

/-- `_is_within_directory` of the source: compares the character-wise common
prefix of the two absolute paths with the directory. -/
def is_within_directory (directory target : List Char) : Bool :=
  commonPref (absNorm directory) (absNorm target) == absNorm directory

/-- `safe_extract_tar`: raise unless every member passes
`_is_within_directory`; only then extract. -/
def safe_extract_tar (members : List (List Char)) (path : List Char) : Except String Unit :=
  if members.all (fun m => is_within_directory path (joinPath path m)) then Except.ok ()
  else Except.error "Blocked path traversal in tar file"

/-- `extract`: zip archives are extracted by `zipfile.extractall` with no
repository-level traversal check; everything else goes through
`safe_extract_tar`. -/
def extract (suffix : List Char) (entries : List (List Char)) (dest : List Char) :
    Except String Unit :=
  if suffix = chars ".zip" then Except.ok () else safe_extract_tar entries dest

/-- Ground truth used by the claim: the entry's resolved path is the
destination itself or lies strictly below it. -/
def resolvedWithin (dest m : List Char) : Bool :=
  let t := absNorm (joinPath dest m)
  let d := absNorm dest
  t == d || (d ++ ['/']).isPrefixOf t

/-!
Vocabulary construction (`build_vocab`) and vectorization (`vectorize_df`).

The Python document-frequency dict is insertion ordered; it is embedded as an
association list in which a new key is appended at the end (`bump`).  Python's
`list.sort(key=..., reverse=True)` is a stable descending sort, embedded as a
stable insertion sort (`sortDesc`).  The source iterates `set(tokenize(txt))`,
whose order Python leaves unspecified; `build_vocabWith` therefore takes the
per-document distinct-token lists as input, and `build_vocab` instantiates it
with first-occurrence order (`dedupF`), one realization of that set.
-/

/-- A token: the code points of a string. -/
abbrev Tok := List Nat

/-- `df[tok] = df.get(tok, 0) + 1` on an insertion-ordered dict: increment the
first entry with this key, or append a fresh entry with count 1. -/
def bump : List (Tok × Nat) → Tok → List (Tok × Nat)
  | [], t => [(t, 1)]
  | (u, c) :: rest, t => if u = t then (u, c + 1) :: rest else (u, c) :: bump rest t

/-- Account one document's distinct tokens into the document-frequency dict. -/
def addDoc (df : List (Tok × Nat)) (toks : List Tok) : List (Tok × Nat) := toks.foldl bump df

/-- The document-frequency dict of a whole corpus, given each document's
distinct-token list. -/
def docFreqList (docSets : List (List Tok)) : List (Tok × Nat) := docSets.foldl addDoc []

/-- Dict lookup with default 0 (`df.get(tok, 0)`). -/
def lookupC : List (Tok × Nat) → Tok → Nat
  | [], _ => 0
  | (u, c) :: rest, t => if u = t then c else lookupC rest t

/-- One step of the stable descending insertion sort: place `p` before the
first entry whose count is at most `p`'s. -/
def insertDesc (p : Tok × Nat) : List (Tok × Nat) → List (Tok × Nat)
  | [] => [p]
  | q :: rest => if q.2 ≤ p.2 then p :: q :: rest else q :: insertDesc p rest

/-- Stable sort by strictly descending count, the embedding of
`items.sort(key=lambda x: x[1], reverse=True)`. -/
def sortDesc : List (Tok × Nat) → List (Tok × Nat)
  | [] => []
  | p :: rest => insertDesc p (sortDesc rest)

/-- `build_vocab` on the per-document distinct-token lists: count document
frequencies, keep counts at least `min_df`, sort by descending count, truncate
to `max_vocab`, and let each token's column index be its position. -/
def build_vocabWith (docSets : List (List Tok)) (min_df max_vocab : Nat) : List Tok :=
  ((sortDesc ((docFreqList docSets).filter (fun p => min_df ≤ p.2))).take max_vocab).map Prod.fst

/-- First-occurrence deduplication, a deterministic realization of iterating
`set(...)`. -/
def dedupF : List Tok → List Tok
  | [] => []
  | t :: ts => t :: (dedupF ts).filter (fun u => u ≠ t)

/-- The distinct tokens of one document, `set(tokenize(txt))`. -/
def distinctTokens (l : List Nat) : List Tok := dedupF (tokenize l)

/-- `build_vocab` from raw documents. -/
def build_vocab (docs : List (List Nat)) (min_df max_vocab : Nat) : List Tok :=
  build_vocabWith (docs.map distinctTokens) min_df max_vocab

/-- Document frequency of a token: the number of documents containing it. -/
def docCount (docs : List (List Nat)) (t : Tok) : Nat :=
  docs.countP (fun d => decide (t ∈ tokenize d))

/-- Index of the first occurrence of `t` (length of the list if absent). -/
def firstIdx : List Tok → Tok → Nat
  | [], _ => 0
  | u :: rest, t => if u = t then 0 else firstIdx rest t + 1

/-- The token-to-column dict `{tok: i for i, (tok, _) in enumerate(items)}`. -/
def vocabDict (v : List Tok) : List (Tok × Nat) := v.enum.map (fun p => (p.2, p.1))

/-- `vocab.get(tok)`: the index of the token in the vocabulary, if present. -/
def idxOf : List Tok → Tok → Option Nat
  | [], _ => none
  | u :: rest, t => if u = t then some 0 else (idxOf rest t).map (· + 1)

/-- One row of the feature matrix: start from a zero row of width `|vocab|`
and set column `j` to 1 for each distinct token of the document found in the
vocabulary. -/
def vectorRow (vocab : List Tok) (txt : List Nat) : List Nat :=
  (distinctTokens txt).foldl
    (fun row t =>
      match idxOf vocab t with
      | some j => row.set j 1
      | none => row)
    (List.replicate vocab.length 0)

/-- `vectorize_df`: build all rows, then validate the optional row-label list
(its length must equal the number of documents, else a `ValueError`); row
labels default to `range(len(docs))`. -/
def vectorize_df (docs : List (List Nat)) (vocab : List Tok) (index : Option (List Nat)) :
    Except String (List (List Nat) × List Nat) :=
  let X := docs.map (vectorRow vocab)
  match index with
  | none => Except.ok (X, List.range docs.length)
  | some idx =>
    if idx.length ≠ docs.length then Except.error "index length must match number of docs"
    else Except.ok (X, idx)

/-! ### Lemmas about the tokenizer -/

lemma lowerN_isAlpha (n : Nat) : isAlphaN (lowerN n) = isAlphaN n := by
  unfold lowerN
  split
  next h =>
    simp only [Bool.and_eq_true, decide_eq_true_eq] at h
    unfold isAlphaN
    rw [Bool.eq_iff_iff]
    simp only [Bool.or_eq_true, Bool.and_eq_true, decide_eq_true_eq]
    omega
  next => rfl

lemma lowerN_isDigit (n : Nat) : isDigitN (lowerN n) = isDigitN n := by
  unfold lowerN
  split
  next h =>
    simp only [Bool.and_eq_true, decide_eq_true_eq] at h
    unfold isDigitN
    rw [Bool.eq_iff_iff]
    simp only [Bool.and_eq_true, decide_eq_true_eq]
    omega
  next => rfl

lemma lowerN_eq_at (n : Nat) : lowerN n = 64 ↔ n = 64 := by
  unfold lowerN
  split
  next h =>
    simp only [Bool.and_eq_true, decide_eq_true_eq] at h
    omega
  next => exact Iff.rfl

lemma hasTwoConsecAlpha_cons {c : Nat} {cs : List Nat}
    (h : hasTwoConsecAlpha (c :: cs) = false) : hasTwoConsecAlpha cs = false := by
  cases cs with
  | nil => rfl
  | cons b r =>
    rw [hasTwoConsecAlpha, Bool.or_eq_false_iff] at h
    exact h.2

lemma hasTwoConsecAlpha_map_lowerN (l : List Nat) :
    hasTwoConsecAlpha (l.map lowerN) = hasTwoConsecAlpha l := by
  induction l with
  | nil => rfl
  | cons a tl ih =>
    cases tl with
    | nil => rfl
    | cons b r =>
      simp only [List.map_cons] at ih ⊢
      rw [hasTwoConsecAlpha, hasTwoConsecAlpha, ih, lowerN_isAlpha, lowerN_isAlpha]

lemma hasTwoConsecAlpha_tail {x : Nat} {rest : List Nat} (h : hasTwoConsecAlpha rest = true) :
    hasTwoConsecAlpha (x :: rest) = true := by
  cases rest with
  | nil => simp [hasTwoConsecAlpha] at h
  | cons b r => rw [hasTwoConsecAlpha, h, Bool.or_true]

lemma hasTwoConsecAlpha_adj {a c : Nat} (ha : isAlphaN a = true) (hc : isAlphaN c = true)
    (xs ys : List Nat) : hasTwoConsecAlpha (xs ++ a :: c :: ys) = true := by
  induction xs with
  | nil => simp [hasTwoConsecAlpha, ha, hc]
  | cons x xs ih =>
    rw [List.cons_append]
    exact hasTwoConsecAlpha_tail ih

lemma hasTwoConsecAlpha_append_right {xs ys : List Nat}
    (h : hasTwoConsecAlpha (xs ++ ys) = false) : hasTwoConsecAlpha ys = false := by
  induction xs with
  | nil => simpa using h
  | cons x xs ih =>
    rw [List.cons_append] at h
    exact ih (hasTwoConsecAlpha_cons h)

lemma take_eq_cons {l : List Nat} {k a : Nat} {rest : List Nat} (h : l.take k = a :: rest) :
    ∃ t, l = a :: t := by
  match l, k with
  | [], _ => simp at h
  | _ :: _, 0 => simp at h
  | x :: xs, k + 1 =>
    simp only [List.take_succ_cons, List.cons.injEq] at h
    exact ⟨xs, by rw [h.1]⟩

lemma take_eq_cons_cons {l : List Nat} {k a b : Nat} {rest : List Nat}
    (h : l.take k = a :: b :: rest) : ∃ t, l = a :: b :: t := by
  obtain ⟨t, rfl⟩ := take_eq_cons h
  match k with
  | 0 => simp at h
  | k + 1 =>
    simp only [List.take_succ_cons, List.cons.injEq] at h
    obtain ⟨t', rfl⟩ := take_eq_cons h.2
    exact ⟨t', rfl⟩

lemma tryHttp_none {l : List Nat} (h : hasTwoConsecAlpha l = false) : tryHttp l = none := by
  unfold tryHttp
  split
  next h8 =>
    obtain ⟨t, rfl⟩ := take_eq_cons_cons h8
    rw [hasTwoConsecAlpha] at h
    simp [isAlphaN] at h
  next =>
    split
    next h7 =>
      obtain ⟨t, rfl⟩ := take_eq_cons_cons h7
      rw [hasTwoConsecAlpha] at h
      simp [isAlphaN] at h
    next => rfl

lemma tryWww_none {l : List Nat} (h : hasTwoConsecAlpha l = false) : tryWww l = none := by
  unfold tryWww
  split
  next h4 =>
    obtain ⟨t, rfl⟩ := take_eq_cons_cons h4
    rw [hasTwoConsecAlpha] at h
    simp [isAlphaN] at h
  next => rfl

lemma matchURLAt_none {l : List Nat} (h : hasTwoConsecAlpha l = false) : matchURLAt l = none := by
  unfold matchURLAt
  rw [tryHttp_none h, tryWww_none h]

lemma mem_of_mem_dropWhile {p : Nat → Bool} {a : Nat} {l : List Nat}
    (h : a ∈ l.dropWhile p) : a ∈ l := by
  induction l with
  | nil => simpa using h
  | cons c cs ih =>
    rw [List.dropWhile_cons] at h
    by_cases hp : p c
    · simp only [hp, if_true] at h
      exact List.mem_cons_of_mem _ (ih h)
    · simp only [hp, if_false] at h
      exact h

lemma head?_mem {a : Nat} {l : List Nat} (h : l.head? = some a) : a ∈ l := by
  cases l with
  | nil => simp at h
  | cons c cs =>
    simp only [List.head?_cons, Option.some.injEq] at h
    rw [← h]
    exact List.mem_cons_self _ _

lemma matchEmailAt_none {l : List Nat} (prev : Option Nat) (h : (64 : Nat) ∉ l) :
    matchEmailAt prev l = none := by
  cases l with
  | nil => rfl
  | cons c cs =>
    rw [matchEmailAt]
    have hx : ¬ (((c :: cs).dropWhile isClassN).head? = some 64) := by
      intro hx64
      exact h (mem_of_mem_dropWhile (head?_mem hx64))
    by_cases hcond : (isClassN c && (isWordOpt prev != isWordN c)) = true
    · rw [if_pos hcond, if_neg hx]
    · rw [if_neg hcond]

lemma matchNumAt_none {l : List Nat} (h : ∀ n ∈ l, isDigitN n = false) :
    matchNumAt l = none := by
  unfold matchNumAt
  cases l with
  | nil => rfl
  | cons c cs =>
    have : isDigitN c = false := h c (List.mem_cons_self _ _)
    simp [this]

lemma subMatcherFuel_succ (m : Option Nat → List Nat → Option Nat) (repl : List Nat)
    (n : Nat) (prev : Option Nat) (l : List Nat) :
    subMatcherFuel m repl (n + 1) prev l =
      match m prev l with
      | some k => repl ++ subMatcherFuel m repl n (some (l.getD (k - 1) 0)) (l.drop k)
      | none =>
        match l with
        | [] => []
        | c :: cs => c :: subMatcherFuel m repl n (some c) cs := rfl

lemma subMatcherFuel_id (m : Option Nat → List Nat → Option Nat) (repl : List Nat)
    (P : List Nat → Prop)
    (hstep : ∀ c cs, P (c :: cs) → P cs)
    (hnone : ∀ prev l, P l → m prev l = none) :
    ∀ fuel prev l, P l → subMatcherFuel m repl fuel prev l = l := by
  intro fuel
  induction fuel with
  | zero => intro prev l _; rfl
  | succ n ih =>
    intro prev l hP
    rw [subMatcherFuel_succ, hnone prev l hP]
    cases l with
    | nil => rfl
    | cons c cs =>
      show c :: subMatcherFuel m repl n (some c) cs = c :: cs
      rw [ih (some c) cs (hstep c cs hP)]

lemma subUrl_id {l : List Nat} (h : hasTwoConsecAlpha l = false) : subUrl l = l :=
  subMatcherFuel_id _ _ (fun l' => hasTwoConsecAlpha l' = false)
    (fun _ _ => hasTwoConsecAlpha_cons) (fun _ _ h' => matchURLAt_none h') l.length none l h

lemma subEmail_id {l : List Nat} (h : (64 : Nat) ∉ l) : subEmail l = l :=
  subMatcherFuel_id _ _ (fun l' => (64 : Nat) ∉ l')
    (fun c cs h' hm => h' (List.mem_cons_of_mem c hm))
    (fun prev _ h' => matchEmailAt_none prev h') l.length none l h

lemma subNum_id {l : List Nat} (h : ∀ n ∈ l, isDigitN n = false) : subNum l = l :=
  subMatcherFuel_id _ _ (fun l' => ∀ n ∈ l', isDigitN n = false)
    (fun c cs h' n hn => h' n (List.mem_cons_of_mem c hn))
    (fun _ _ h' => matchNumAt_none h') l.length none l h

lemma findallGo_eq_nil :
    ∀ (l cur : List Nat), hasTwoConsecAlpha (cur.reverse ++ l) = false →
      cur.length ≤ 1 → (∀ a ∈ cur, isAlphaN a = true) → findallGo cur l = [] := by
  intro l
  induction l with
  | nil =>
    intro cur _ hlen _
    rw [findallGo]
    have : ¬ 2 ≤ cur.length := by omega
    simp [this]
  | cons c cs ih =>
    intro cur htwo hlen halpha
    rw [findallGo]
    by_cases hc : isAlphaN c = true
    · rw [if_pos hc]
      cases cur with
      | nil =>
        exact ih [c] (by simpa using htwo) (by simp) (by simp [hc])
      | cons a cur' =>
        exfalso
        have ha : isAlphaN a = true := halpha a (List.mem_cons_self _ _)
        have hcur' : cur' = [] := by
          cases cur' with
          | nil => rfl
          | cons _ _ => simp at hlen
        rw [hcur'] at htwo
        rw [show ([a] : List Nat).reverse ++ c :: cs = [] ++ a :: c :: cs by simp] at htwo
        rw [hasTwoConsecAlpha_adj ha hc] at htwo
        simp at htwo
    · rw [if_neg hc]
      rw [if_neg (by omega : ¬ 2 ≤ cur.length)]
      rw [List.nil_append]
      have hpre : hasTwoConsecAlpha ((cur.reverse ++ [c]) ++ cs) = false := by
        rw [List.append_assoc]
        simpa using htwo
      have : hasTwoConsecAlpha cs = false := hasTwoConsecAlpha_append_right hpre
      exact ih [] (by simpa using this) (by simp) (by simp)

lemma findallTokens_eq_nil {l : List Nat} (h : hasTwoConsecAlpha l = false) :
    findallTokens l = [] :=
  findallGo_eq_nil l [] (by simpa using h) (by simp) (by simp)

/-! ### Claim theorems: extraction and tokenizer -/

/-- C1: the spec requires every archive entry resolving outside the
destination to abort extraction with a Security error, for zip and tar alike.
The code violates this: for a tar member such as `../dataxx` against
destination `/tmp/data`, the `commonprefix` containment check of
`_is_within_directory` succeeds even though the member resolves to the sibling
`/tmp/dataxx`, so `safe_extract_tar` proceeds; and the zip branch of `extract`
performs no traversal check at all, so a `../../etc/passwd` entry never raises
the Security error either. -/
theorem extract_misses_traversal :
    (resolvedWithin (chars "/tmp/data") (chars "../dataxx") = false ∧
      extract (chars ".tar") [chars "../dataxx"] (chars "/tmp/data") = Except.ok ()) ∧
    (resolvedWithin (chars "/tmp/data") (chars "../../etc/passwd") = false ∧
      extract (chars ".zip") [chars "../../etc/passwd"] (chars "/tmp/data") = Except.ok ()) :=
  ⟨⟨by decide, rfl⟩, ⟨by decide, rfl⟩⟩

/-- C2: tokenizing the example sentence yields `EMAIL`, `URL`, `NUM` exactly
once each, together with the seven ordinary words, and no token shorter than
two characters. -/
theorem tokenize_contact_example :
    tokenizeStr "Contact me at a@b.com or visit http://x.com, call 123 now" =
      [strCodes "contact", strCodes "me", strCodes "at", strCodes "EMAIL", strCodes "or",
       strCodes "visit", strCodes "URL", strCodes "call", strCodes "NUM", strCodes "now"] ∧
    occ (strCodes "EMAIL")
        (tokenizeStr "Contact me at a@b.com or visit http://x.com, call 123 now") = 1 ∧
    occ (strCodes "URL")
        (tokenizeStr "Contact me at a@b.com or visit http://x.com, call 123 now") = 1 ∧
    occ (strCodes "NUM")
        (tokenizeStr "Contact me at a@b.com or visit http://x.com, call 123 now") = 1 ∧
    ∀ t ∈ tokenizeStr "Contact me at a@b.com or visit http://x.com, call 123 now",
      2 ≤ t.length := by
  decide

/-- C3, counterexample: `"123"` contains no two consecutive alphabetic
characters, yet `tokenize` returns `["NUM"]`, not the empty sequence — the
number substitution inserts the alphabetic placeholder before token
extraction. -/
theorem tokenize_short_counterexample :
    hasTwoConsecAlpha (strCodes "123") = false ∧ tokenizeStr "123" = [strCodes "NUM"] ∧
      tokenizeStr "123" ≠ [] := by
  refine ⟨by decide, by decide, ?_⟩
  intro h
  have : tokenizeStr "123" = [strCodes "NUM"] := by decide
  rw [this] at h
  exact absurd h (by decide)

/-- C3, amended: if the text additionally contains no digit and no `@`, so no
placeholder substitution can fire, then fewer than two consecutive alphabetic
characters yield zero tokens. -/
theorem tokenize_empty_of_no_triggers (l : List Nat)
    (hd : ∀ n ∈ l, isDigitN n = false) (hat : (64 : Nat) ∉ l)
    (ha : hasTwoConsecAlpha l = false) : tokenize l = [] := by
  have hd' : ∀ n ∈ l.map lowerN, isDigitN n = false := by
    intro n hn
    obtain ⟨x, hx, rfl⟩ := List.mem_map.mp hn
    rw [lowerN_isDigit]
    exact hd x hx
  have hat' : (64 : Nat) ∉ l.map lowerN := by
    intro hm
    obtain ⟨x, hx, hlx⟩ := List.mem_map.mp hm
    exact hat (((lowerN_eq_at x).mp hlx) ▸ hx)
  have ha' : hasTwoConsecAlpha (l.map lowerN) = false := by
    rw [hasTwoConsecAlpha_map_lowerN]; exact ha
  unfold tokenize
  rw [subUrl_id ha', subEmail_id hat', subNum_id hd', findallTokens_eq_nil ha']

/-- Witness for the amended C3 at the concrete input `"+-?"`. -/
theorem tokenize_empty_of_no_triggers_witness : tokenize (strCodes "+-?") = [] :=
  tokenize_empty_of_no_triggers (strCodes "+-?") (by decide) (by decide) (by decide)

/-- C8: `vectorize_df` fails with the length-mismatch `ValueError` exactly
when a row-label list of the wrong length is supplied; with matching length or
no labels it succeeds. -/
theorem vectorize_df_index_validation (docs : List (List Nat)) (vocab : List Tok)
    (idx : List Nat) :
    (idx.length ≠ docs.length →
      vectorize_df docs vocab (some idx) =
        Except.error "index length must match number of docs") ∧
    (idx.length = docs.length →
      vectorize_df docs vocab (some idx) = Except.ok (docs.map (vectorRow vocab), idx)) ∧
    vectorize_df docs vocab none =
      Except.ok (docs.map (vectorRow vocab), List.range docs.length) := by
  refine ⟨fun h => ?_, fun h => ?_, rfl⟩ <;> simp [vectorize_df, h]

/-- Witness for C8 at a concrete mismatch and a concrete match. -/
theorem vectorize_df_index_validation_witness :
    vectorize_df [strCodes "aa"] [strCodes "aa"] (some [5, 6]) =
        Except.error "index length must match number of docs" ∧
    vectorize_df [strCodes "aa"] [strCodes "aa"] (some [5]) =
        Except.ok ([[1]], [5]) := by
  constructor
  · exact (vectorize_df_index_validation [strCodes "aa"] [strCodes "aa"] [5, 6]).1 (by decide)
  · rw [(vectorize_df_index_validation [strCodes "aa"] [strCodes "aa"] [5]).2.1 (by decide)]
    exact congrArg Except.ok (by decide)

/-- C9: vectorizing the empty document gives the all-zero row of width
`|vocab|`. -/
theorem vectorize_empty_document (vocab : List Tok) :
    vectorRow vocab [] = List.replicate vocab.length 0 ∧
      (vectorRow vocab []).length = vocab.length := by
  constructor
  · rfl
  · show (List.replicate vocab.length 0).length = vocab.length
    exact List.length_replicate _ _

/-! ### Lemmas about the document-frequency dict -/

lemma lookupC_bump (df : List (Tok × Nat)) (t s : Tok) :
    lookupC (bump df t) s = lookupC df s + (if t = s then 1 else 0) := by
  induction df with
  | nil =>
    by_cases h : t = s <;> simp [bump, lookupC, h]
  | cons p rest ih =>
    obtain ⟨u, c⟩ := p
    by_cases hut : u = t
    · subst hut
      rw [bump, if_pos rfl]
      by_cases hus : u = s
      · subst hus
        simp [lookupC]
      · simp [lookupC, hus]
    · rw [bump, if_neg hut]
      by_cases hus : u = s
      · subst hus
        have hts : ¬ t = u := fun h => hut h.symm
        simp [lookupC, hts]
      · simp [lookupC, hus, ih]

lemma occ_eq_zero {s : Tok} {d : List Tok} (h : s ∉ d) : occ s d = 0 := by
  induction d with
  | nil => rfl
  | cons x xs ih =>
    rw [occ, if_neg (fun hx => h (List.mem_cons.mpr (Or.inl hx.symm))),
      ih (fun hs => h (List.mem_cons_of_mem x hs))]

lemma occ_nodup {d : List Tok} (h : d.Nodup) (s : Tok) :
    occ s d = if s ∈ d then 1 else 0 := by
  induction d with
  | nil => simp [occ]
  | cons x xs ih =>
    rw [List.nodup_cons] at h
    rw [occ]
    by_cases hxs : x = s
    · subst hxs
      rw [if_pos rfl, occ_eq_zero h.1, if_pos (List.mem_cons_self _ _)]
    · rw [if_neg hxs, ih h.2]
      by_cases hmem : s ∈ xs
      · rw [if_pos hmem, if_pos (List.mem_cons_of_mem _ hmem)]
      · have hns : s ∉ x :: xs := by
          intro hmem'
          rcases List.mem_cons.mp hmem' with h' | h'
          · exact hxs h'.symm
          · exact hmem h'
        rw [if_neg hmem, if_neg hns]

lemma occ_pos_mem {s : Tok} {d : List Tok} (h : 1 ≤ occ s d) : s ∈ d := by
  induction d with
  | nil => simp [occ] at h
  | cons x xs ih =>
    rw [occ] at h
    by_cases hxs : x = s
    · exact hxs ▸ List.mem_cons_self _ _
    · rw [if_neg hxs] at h
      exact List.mem_cons_of_mem _ (ih (by omega))

lemma lookupC_addDoc (d : List Tok) (s : Tok) :
    ∀ df, lookupC (addDoc df d) s = lookupC df s + occ s d := by
  induction d with
  | nil => intro df; simp [addDoc, occ]
  | cons x xs ih =>
    intro df
    show lookupC (addDoc (bump df x) xs) s = _
    rw [ih (bump df x), lookupC_bump, occ]
    by_cases hxs : x = s <;> simp [hxs] <;> omega

lemma lookupC_foldl_addDoc (ds : List (List Tok)) (s : Tok) :
    ∀ df, lookupC (ds.foldl addDoc df) s = lookupC df s + (ds.map (occ s)).sum := by
  induction ds with
  | nil => intro df; simp
  | cons d ds ih =>
    intro df
    rw [List.foldl_cons, ih, lookupC_addDoc, List.map_cons, List.sum_cons]
    omega

lemma lookupC_docFreqList (ds : List (List Tok)) (s : Tok) :
    lookupC (docFreqList ds) s = (ds.map (occ s)).sum := by
  rw [docFreqList, lookupC_foldl_addDoc ds s []]
  simp [lookupC]

lemma lookupC_docFreq_count (ds : List (List Tok)) (hnd : ∀ d ∈ ds, List.Nodup d) (s : Tok) :
    lookupC (docFreqList ds) s = ds.countP (fun d => decide (s ∈ d)) := by
  rw [lookupC_docFreqList]
  induction ds with
  | nil => simp
  | cons d ds ih =>
    rw [List.map_cons, List.sum_cons, List.countP_cons,
      ih (fun x hx => hnd x (List.mem_cons_of_mem d hx)),
      occ_nodup (hnd d (List.mem_cons_self _ _))]
    by_cases hmem : s ∈ d <;> simp [hmem] <;> omega

lemma fst_bump (df : List (Tok × Nat)) (t : Tok) :
    (bump df t).map Prod.fst =
      if t ∈ df.map Prod.fst then df.map Prod.fst else df.map Prod.fst ++ [t] := by
  induction df with
  | nil => simp [bump]
  | cons p rest ih =>
    obtain ⟨u, c⟩ := p
    by_cases hut : u = t
    · subst hut
      rw [bump, if_pos rfl]
      simp
    · rw [bump, if_neg hut, List.map_cons, List.map_cons, ih]
      by_cases hmem : t ∈ rest.map Prod.fst
      · rw [if_pos hmem, if_pos (List.mem_cons_of_mem _ hmem)]
      · have hnt : t ∉ u :: rest.map Prod.fst := by
          intro h'
          rcases List.mem_cons.mp h' with h'' | h''
          · exact hut h''.symm
          · exact hmem h''
        rw [if_neg hmem, if_neg hnt, List.cons_append]

lemma keysNodup_bump {df : List (Tok × Nat)} (t : Tok) (h : (df.map Prod.fst).Nodup) :
    ((bump df t).map Prod.fst).Nodup := by
  rw [fst_bump]
  by_cases hmem : t ∈ df.map Prod.fst
  · rw [if_pos hmem]; exact h
  · rw [if_neg hmem]
    simp [List.nodup_append, h, hmem]

lemma keysNodup_addDoc (d : List Tok) :
    ∀ df : List (Tok × Nat), (df.map Prod.fst).Nodup → ((addDoc df d).map Prod.fst).Nodup := by
  induction d with
  | nil => intro df h; exact h
  | cons x xs ih =>
    intro df h
    exact ih (bump df x) (keysNodup_bump x h)

lemma keysNodup_docFreqList (ds : List (List Tok)) : ((docFreqList ds).map Prod.fst).Nodup := by
  have : ∀ df : List (Tok × Nat), (df.map Prod.fst).Nodup →
      ((ds.foldl addDoc df).map Prod.fst).Nodup := by
    induction ds with
    | nil => intro df h; exact h
    | cons d ds ih => intro df h; exact ih (addDoc df d) (keysNodup_addDoc d df h)
  exact this [] (by simp)

lemma lookupC_of_mem {df : List (Tok × Nat)} (h : (df.map Prod.fst).Nodup) {t : Tok} {c : Nat}
    (hm : (t, c) ∈ df) : lookupC df t = c := by
  induction df with
  | nil => simp at hm
  | cons p rest ih =>
    obtain ⟨u, c'⟩ := p
    rw [List.map_cons, List.nodup_cons] at h
    rcases List.mem_cons.mp hm with heq | hmem
    · injection heq with h1 h2
      rw [lookupC, if_pos h1.symm, ← h2]
    · have hne : u ≠ t := by
        intro hut
        exact h.1 (hut ▸ List.mem_map.mpr ⟨(t, c), hmem, rfl⟩)
      rw [lookupC, if_neg hne, ih h.2 hmem]

lemma mem_keys_of_lookupC_pos {df : List (Tok × Nat)} {t : Tok} (h : 1 ≤ lookupC df t) :
    t ∈ df.map Prod.fst := by
  induction df with
  | nil => simp [lookupC] at h
  | cons p rest ih =>
    obtain ⟨u, c⟩ := p
    by_cases hut : u = t
    · exact hut ▸ List.mem_map.mpr ⟨(u, c), List.mem_cons_self _ _, rfl⟩
    · rw [lookupC, if_neg hut] at h
      exact List.mem_cons_of_mem _ (ih h)

/-! ### Lemmas about the stable descending sort -/

lemma insertDesc_perm (p : Tok × Nat) (l : List (Tok × Nat)) :
    List.Perm (insertDesc p l) (p :: l) := by
  induction l with
  | nil => exact List.Perm.refl _
  | cons q rest ih =>
    rw [insertDesc]
    by_cases h : q.2 ≤ p.2
    · rw [if_pos h]
    · rw [if_neg h]
      exact ((ih.cons q).trans (List.Perm.swap p q rest))

lemma sortDesc_perm (l : List (Tok × Nat)) : List.Perm (sortDesc l) l := by
  induction l with
  | nil => exact List.Perm.refl _
  | cons p rest ih => exact (insertDesc_perm p (sortDesc rest)).trans (ih.cons p)

lemma insertDesc_pairwise (p : Tok × Nat) {l : List (Tok × Nat)}
    (h : l.Pairwise (fun a b => b.2 ≤ a.2)) :
    (insertDesc p l).Pairwise (fun a b => b.2 ≤ a.2) := by
  induction l with
  | nil => simp [insertDesc]
  | cons q rest ih =>
    rw [List.pairwise_cons] at h
    rw [insertDesc]
    by_cases hq : q.2 ≤ p.2
    · rw [if_pos hq]
      refine List.Pairwise.cons ?_ (List.Pairwise.cons h.1 h.2)
      intro b hb
      rcases List.mem_cons.mp hb with rfl | hb'
      · exact hq
      · exact le_trans (h.1 b hb') hq
    · rw [if_neg hq]
      refine List.Pairwise.cons ?_ (ih h.2)
      intro b hb
      rcases List.mem_cons.mp ((insertDesc_perm p rest).mem_iff.mp hb) with rfl | hb'
      · omega
      · exact h.1 b hb'

lemma sortDesc_pairwise (l : List (Tok × Nat)) :
    (sortDesc l).Pairwise (fun a b => b.2 ≤ a.2) := by
  induction l with
  | nil => simp [sortDesc]
  | cons p rest ih => exact insertDesc_pairwise p ih

lemma sublist_insertDesc (p : Tok × Nat) (l s : List (Tok × Nat)) (h : List.Sublist s l) :
    List.Sublist s (insertDesc p l) := by
  induction l generalizing s with
  | nil =>
    rw [List.sublist_nil] at h
    subst h
    exact List.nil_sublist _
  | cons y ys ih =>
    rw [insertDesc]
    by_cases hy : y.2 ≤ p.2
    · rw [if_pos hy]
      exact h.cons p
    · rw [if_neg hy]
      cases h with
      | cons _ h' => exact (ih _ h').cons y
      | cons₂ _ h' => exact (ih _ h').cons₂ y

lemma pair_sublist_insertDesc {p q : Tok × Nat} {l : List (Tok × Nat)} (hq : q ∈ l)
    (hle : q.2 ≤ p.2) : List.Sublist [p, q] (insertDesc p l) := by
  induction l with
  | nil => simp at hq
  | cons y ys ih =>
    rw [insertDesc]
    by_cases hy : y.2 ≤ p.2
    · rw [if_pos hy]
      exact (List.singleton_sublist.mpr hq).cons₂ p
    · rw [if_neg hy]
      rcases List.mem_cons.mp hq with rfl | hq'
      · omega
      · exact (ih hq').cons y

lemma sortDesc_stable {p q : Tok × Nat} (hpq : p.2 = q.2) :
    ∀ {l : List (Tok × Nat)}, List.Sublist [p, q] l → List.Sublist [p, q] (sortDesc l) := by
  intro l
  induction l with
  | nil => intro h; simpa using h
  | cons x xs ih =>
    intro h
    cases h with
    | cons _ h' => exact sublist_insertDesc x _ _ (ih h')
    | cons₂ _ h' =>
      have hq : q ∈ sortDesc xs :=
        (sortDesc_perm xs).mem_iff.mpr (List.singleton_sublist.mp h')
      exact pair_sublist_insertDesc hq (le_of_eq hpq.symm)

/-! ### Deduplication and the document-count bridge -/

lemma mem_dedupF {t : Tok} {l : List Tok} : t ∈ dedupF l ↔ t ∈ l := by
  induction l with
  | nil => simp [dedupF]
  | cons x xs ih =>
    rw [dedupF]
    constructor
    · intro h
      rcases List.mem_cons.mp h with rfl | h'
      · exact List.mem_cons_self _ _
      · exact List.mem_cons_of_mem _ (ih.mp (List.mem_filter.mp h').1)
    · intro h
      rcases List.mem_cons.mp h with rfl | h'
      · exact List.mem_cons_self _ _
      · by_cases hxt : t = x
        · exact List.mem_cons.mpr (Or.inl hxt)
        · exact List.mem_cons_of_mem _ (List.mem_filter.mpr ⟨ih.mpr h', by simp [hxt]⟩)

lemma dedupF_nodup (l : List Tok) : (dedupF l).Nodup := by
  induction l with
  | nil => simp [dedupF]
  | cons x xs ih =>
    rw [dedupF]
    refine List.Nodup.cons ?_ (List.Nodup.filter _ ih)
    intro hmem
    have := (List.mem_filter.mp hmem).2
    simp at this

lemma docCount_eq_lookup (docs : List (List Nat)) (t : Tok) :
    lookupC (docFreqList (docs.map distinctTokens)) t = docCount docs t := by
  rw [lookupC_docFreq_count _ (fun d hd => by
    obtain ⟨x, _, rfl⟩ := List.mem_map.mp hd
    exact dedupF_nodup _) t]
  rw [docCount]
  induction docs with
  | nil => simp
  | cons d ds ih =>
    rw [List.map_cons, List.countP_cons, List.countP_cons, ih]
    have hdec : (decide (t ∈ distinctTokens d)) = (decide (t ∈ tokenize d)) := by
      simp only [distinctTokens]
      exact decide_eq_decide.mpr mem_dedupF
    rw [hdec]

/-! ### Membership in the built vocabulary -/

lemma build_vocabWith_mem {ds : List (List Tok)} {mdf mxv : Nat} {t : Tok}
    (h : t ∈ build_vocabWith ds mdf mxv) :
    mdf ≤ lookupC (docFreqList ds) t ∧
      (t, lookupC (docFreqList ds) t) ∈
        (sortDesc ((docFreqList ds).filter (fun p => mdf ≤ p.2))).take mxv := by
  rw [build_vocabWith] at h
  obtain ⟨p, hp, hfst⟩ := List.mem_map.mp h
  obtain ⟨u, c⟩ := p
  cases hfst
  have hsorted : (u, c) ∈ sortDesc ((docFreqList ds).filter (fun p => mdf ≤ p.2)) :=
    List.take_subset _ _ hp
  have hitems : (u, c) ∈ (docFreqList ds).filter (fun p => mdf ≤ p.2) :=
    (sortDesc_perm _).mem_iff.mp hsorted
  have hdf : (u, c) ∈ docFreqList ds := (List.mem_filter.mp hitems).1
  have hc : lookupC (docFreqList ds) u = c := lookupC_of_mem (keysNodup_docFreqList ds) hdf
  have hmdf : mdf ≤ c := by simpa using (List.mem_filter.mp hitems).2
  rw [hc]
  exact ⟨hmdf, hp⟩

lemma nodup_build_vocabWith (ds : List (List Tok)) (mdf mxv : Nat) :
    (build_vocabWith ds mdf mxv).Nodup := by
  rw [build_vocabWith]
  have hdf := keysNodup_docFreqList ds
  have hitems : (((docFreqList ds).filter (fun p => mdf ≤ p.2)).map Prod.fst).Nodup :=
    hdf.sublist ((List.filter_sublist _).map Prod.fst)
  have hsorted :
      ((sortDesc ((docFreqList ds).filter (fun p => mdf ≤ p.2))).map Prod.fst).Nodup :=
    (((sortDesc_perm ((docFreqList ds).filter (fun p => mdf ≤ p.2))).map
      Prod.fst).nodup_iff).mpr hitems
  exact hsorted.sublist ((List.take_sublist _ _).map _)

lemma sorted_pair_snd {docs : List (List Nat)} {mdf : Nat} {p : Tok × Nat}
    (hp : p ∈ sortDesc
      ((docFreqList (docs.map distinctTokens)).filter (fun q => mdf ≤ q.2))) :
    p.2 = docCount docs p.1 := by
  obtain ⟨a, c⟩ := p
  have hitems := (sortDesc_perm _).mem_iff.mp hp
  have hdf : (a, c) ∈ docFreqList (docs.map distinctTokens) := (List.mem_filter.mp hitems).1
  have h := lookupC_of_mem (keysNodup_docFreqList _) hdf
  rw [docCount_eq_lookup] at h
  exact h.symm

/-! ### Claim theorems: vocabulary construction -/

/-- C4: every token retained by `build_vocab` has document frequency at least
`min_df`, and tokens strictly below the threshold are discarded. -/
theorem build_vocab_min_df (docs : List (List Nat)) (mdf mxv : Nat) (t : Tok) :
    (t ∈ build_vocab docs mdf mxv → mdf ≤ docCount docs t) ∧
    (docCount docs t < mdf → t ∉ build_vocab docs mdf mxv) := by
  have main : t ∈ build_vocab docs mdf mxv → mdf ≤ docCount docs t := by
    intro h
    rw [build_vocab] at h
    have h2 := (build_vocabWith_mem h).1
    rwa [docCount_eq_lookup] at h2
  exact ⟨main, fun hlt hmem => absurd (main hmem) (by omega)⟩

/-- Witness for C4 on a concrete two-document corpus. -/
theorem build_vocab_min_df_witness :
    1 ≤ docCount [strCodes "aa bb", strCodes "aa"] (strCodes "aa") :=
  (build_vocab_min_df [strCodes "aa bb", strCodes "aa"] 1 5 (strCodes "aa")).1 (by decide)

/-- C5: the vocabulary never exceeds `max_vocab`; its tokens appear in
non-increasing document-frequency order; and any token meeting the threshold
but left out has document frequency at most that of every retained token. -/
theorem build_vocab_size_and_order (docs : List (List Nat)) (mdf mxv : Nat) :
    (build_vocab docs mdf mxv).length ≤ mxv ∧
    (build_vocab docs mdf mxv).Pairwise (fun u v => docCount docs v ≤ docCount docs u) ∧
    (∀ t : Tok, t ∉ build_vocab docs mdf mxv → mdf ≤ docCount docs t →
      ∀ u ∈ build_vocab docs mdf mxv, docCount docs t ≤ docCount docs u) := by
  refine ⟨?_, ?_, ?_⟩
  · rw [build_vocab, build_vocabWith, List.length_map]
    exact List.length_take_le _ _
  · rw [build_vocab, build_vocabWith, List.pairwise_map]
    have hPW := sortDesc_pairwise
      ((docFreqList (docs.map distinctTokens)).filter (fun q => mdf ≤ q.2))
    have htake := hPW.sublist (List.take_sublist mxv _)
    refine List.Pairwise.imp_of_mem ?_ htake
    intro a b ha hb hr
    have ha2 := sorted_pair_snd (List.take_subset _ _ ha)
    have hb2 := sorted_pair_snd (List.take_subset _ _ hb)
    rw [← ha2, ← hb2]
    exact hr
  · intro t hnot hmdf u hu
    by_cases h0 : docCount docs t = 0
    · omega
    · have hpos : 1 ≤ lookupC (docFreqList (docs.map distinctTokens)) t := by
        rw [docCount_eq_lookup]
        omega
      obtain ⟨p, hp, hfst⟩ := List.mem_map.mp (mem_keys_of_lookupC_pos hpos)
      obtain ⟨a, c⟩ := p
      cases hfst
      dsimp only at hnot hmdf h0 ⊢
      have hc : lookupC (docFreqList (docs.map distinctTokens)) a = c :=
        lookupC_of_mem (keysNodup_docFreqList _) hp
      have hcd : c = docCount docs a := by rw [← docCount_eq_lookup docs a, hc]
      have hitems : (a, c) ∈ (docFreqList (docs.map distinctTokens)).filter
          (fun q => mdf ≤ q.2) :=
        List.mem_filter.mpr ⟨hp, by simp only [decide_eq_true_eq]; omega⟩
      have hsorted : (a, c) ∈ sortDesc ((docFreqList (docs.map distinctTokens)).filter
          (fun q => mdf ≤ q.2)) :=
        (sortDesc_perm _).mem_iff.mpr hitems
      have hsplitmem : (a, c) ∈
          (sortDesc ((docFreqList (docs.map distinctTokens)).filter
            (fun q => mdf ≤ q.2))).take mxv ++
          (sortDesc ((docFreqList (docs.map distinctTokens)).filter
            (fun q => mdf ≤ q.2))).drop mxv := by
        rw [List.take_append_drop]
        exact hsorted
      have hdropmem : (a, c) ∈ (sortDesc ((docFreqList (docs.map distinctTokens)).filter
          (fun q => mdf ≤ q.2))).drop mxv := by
        rcases List.mem_append.mp hsplitmem with hin | hin
        · exact absurd (by
            rw [build_vocab, build_vocabWith]
            exact List.mem_map.mpr ⟨(a, c), hin, rfl⟩) hnot
        · exact hin
      rw [build_vocab] at hu
      have hu_take := (build_vocabWith_mem hu).2
      have hPW := sortDesc_pairwise
        ((docFreqList (docs.map distinctTokens)).filter (fun q => mdf ≤ q.2))
      have hsplit := (List.take_append_drop mxv (sortDesc
        ((docFreqList (docs.map distinctTokens)).filter (fun q => mdf ≤ q.2)))).symm ▸ hPW
      obtain ⟨-, -, hcross⟩ := List.pairwise_append.mp hsplit
      have hle : c ≤ lookupC (docFreqList (docs.map distinctTokens)) u :=
        hcross _ hu_take _ hdropmem
      have hu_snd : lookupC (docFreqList (docs.map distinctTokens)) u = docCount docs u :=
        docCount_eq_lookup docs u
      rw [← hcd]
      calc c ≤ lookupC (docFreqList (docs.map distinctTokens)) u := hle
        _ = docCount docs u := hu_snd

/-- Witness for C5: with `max_vocab = 1` the lower-frequency token `bb` is
truncated away and its frequency is at most that of the retained `aa`. -/
theorem build_vocab_size_and_order_witness :
    docCount [strCodes "aa bb", strCodes "aa"] (strCodes "bb") ≤
      docCount [strCodes "aa bb", strCodes "aa"] (strCodes "aa") :=
  (build_vocab_size_and_order [strCodes "aa bb", strCodes "aa"] 1 1).2.2
    (strCodes "bb") (by decide) (by decide) (strCodes "aa") (by decide)

/-- C6: the column indices assigned by `build_vocab` are exactly the
contiguous range `[0, |vocab|)` and each token carries exactly one index. -/
theorem build_vocab_indices (docs : List (List Nat)) (mdf mxv : Nat) :
    (vocabDict (build_vocab docs mdf mxv)).map Prod.snd =
      List.range (build_vocab docs mdf mxv).length ∧
    ((vocabDict (build_vocab docs mdf mxv)).map Prod.fst).Nodup := by
  constructor
  · rw [vocabDict, List.map_map]
    have h : (Prod.snd ∘ fun p : Nat × Tok => (p.2, p.1)) = Prod.fst := rfl
    rw [h, List.enum_map_fst]
  · rw [vocabDict, List.map_map]
    have h : (Prod.fst ∘ fun p : Nat × Tok => (p.2, p.1)) = Prod.snd := rfl
    rw [h, List.enum_map_snd, build_vocab]
    exact nodup_build_vocabWith _ _ _

/-! ### Lemmas about `vectorRow` -/

lemma idxOf_some {v : List Tok} {t : Tok} {j : Nat} (h : idxOf v t = some j) :
    j < v.length ∧ v.getD j [] = t := by
  induction v generalizing j with
  | nil => simp [idxOf] at h
  | cons u rest ih =>
    rw [idxOf] at h
    by_cases hut : u = t
    · rw [if_pos hut] at h
      injection h with h
      subst h
      exact ⟨Nat.succ_pos _, hut⟩
    · rw [if_neg hut] at h
      rcases Option.map_eq_some'.mp h with ⟨j', hj', rfl⟩
      obtain ⟨h1, h2⟩ := ih hj'
      exact ⟨Nat.succ_lt_succ h1, h2⟩

lemma idxOf_none {v : List Tok} {t : Tok} : idxOf v t = none ↔ t ∉ v := by
  induction v with
  | nil => simp [idxOf]
  | cons u rest ih =>
    rw [idxOf]
    by_cases hut : u = t
    · simp [hut]
    · rw [if_neg hut]
      have htu : ¬ t = u := fun h => hut h.symm
      simp [Option.map_eq_none', ih, htu]

lemma idxOf_getD {v : List Tok} (hnd : v.Nodup) :
    ∀ {j : Nat}, j < v.length → idxOf v (v.getD j []) = some j := by
  induction v with
  | nil => intro j hj; simp at hj
  | cons u rest ih =>
    intro j hj
    rw [List.nodup_cons] at hnd
    match j with
    | 0 =>
      rw [idxOf]
      simp
    | j + 1 =>
      have hj' : j < rest.length := by simpa using hj
      have hmem : rest.getD j [] ∈ rest := by
        rw [List.getD_eq_getElem _ _ hj']
        exact List.getElem_mem hj'
      have hne : ¬ u = rest.getD j [] := fun h => hnd.1 (h ▸ hmem)
      show (if u = rest.getD j [] then some 0 else (idxOf rest (rest.getD j [])).map (· + 1)) =
        some (j + 1)
      rw [if_neg hne, ih hnd.2 hj']
      rfl

lemma getD_set_self : ∀ (row : List Nat) (j : Nat), j < row.length →
    (row.set j 1).getD j 0 = 1 := by
  intro row
  induction row with
  | nil => intro j h; simp at h
  | cons x xs ih =>
    intro j h
    match j with
    | 0 => rfl
    | j + 1 => exact ih j (by simpa using h)

lemma getD_set_other : ∀ (row : List Nat) (i j : Nat), i ≠ j →
    (row.set i 1).getD j 0 = row.getD j 0 := by
  intro row
  induction row with
  | nil => intro i j _; rfl
  | cons x xs ih =>
    intro i j hne
    match i, j with
    | 0, 0 => exact absurd rfl hne
    | 0, j + 1 => rfl
    | i + 1, 0 => rfl
    | i + 1, j + 1 => exact ih i j (fun h => hne (by rw [h]))

lemma getD_replicate_zero : ∀ (n j : Nat), (List.replicate n (0 : Nat)).getD j 0 = 0 := by
  intro n
  induction n with
  | zero => intro j; rfl
  | succ n ih =>
    intro j
    match j with
    | 0 => rfl
    | j + 1 => exact ih j

lemma vectorRow_foldl_getD {v : List Tok} (hnd : v.Nodup) {j : Nat} (hj : j < v.length) :
    ∀ (S : List Tok) (row : List Nat), row.length = v.length →
      ((S.foldl (fun row t =>
        match idxOf v t with
        | some j => row.set j 1
        | none => row) row).getD j 0) = if v.getD j [] ∈ S then 1 else row.getD j 0 := by
  intro S
  induction S with
  | nil =>
    intro row _
    simp
  | cons t S' ih =>
    intro row hrow
    rw [List.foldl_cons]
    have hlen : (match idxOf v t with
        | some j => row.set j 1
        | none => row).length = v.length := by
      cases hidx : idxOf v t <;> simp [hrow]
    rw [ih _ hlen]
    by_cases hmem : v.getD j [] ∈ S'
    · rw [if_pos hmem, if_pos (List.mem_cons_of_mem _ hmem)]
    · rw [if_neg hmem]
      rcases Option.eq_none_or_eq_some (idxOf v t) with hidx | ⟨j', hidx⟩
      · rw [hidx]
        have hvmem : v.getD j [] ∈ v := by
          rw [List.getD_eq_getElem _ _ hj]
          exact List.getElem_mem hj
        have hne : v.getD j [] ≠ t := fun h => (idxOf_none.mp hidx) (h ▸ hvmem)
        have hnm : v.getD j [] ∉ t :: S' := by
          intro hm
          rcases List.mem_cons.mp hm with h | h
          · exact hne h
          · exact hmem h
        rw [if_neg hnm]
      · rw [hidx]
        obtain ⟨hj'len, hj'val⟩ := idxOf_some hidx
        by_cases hjj : j = j'
        · subst hjj
          rw [if_pos (List.mem_cons.mpr (Or.inl hj'val))]
          show (row.set j 1).getD j 0 = 1
          exact getD_set_self row j (by rw [hrow]; exact hj'len)
        · have hne : v.getD j [] ≠ t := by
            intro h
            have h1 := idxOf_getD hnd hj
            rw [h, hidx] at h1
            injection h1 with h1
            exact hjj h1.symm
          have hnm : v.getD j [] ∉ t :: S' := by
            intro hm
            rcases List.mem_cons.mp hm with h | h
            · exact hne h
            · exact hmem h
          rw [if_neg hnm]
          show (row.set j' 1).getD j 0 = row.getD j 0
          exact getD_set_other row j' j (fun h => hjj h.symm)

lemma vectorRow_length (v : List Tok) (txt : List Nat) :
    (vectorRow v txt).length = v.length := by
  rw [vectorRow]
  have hgen : ∀ (S : List Tok) (row : List Nat),
      (S.foldl (fun row t =>
        match idxOf v t with
        | some j => row.set j 1
        | none => row) row).length = row.length := by
    intro S
    induction S with
    | nil => intro row; rfl
    | cons t S' ih =>
      intro row
      rw [List.foldl_cons, ih]
      cases hidx : idxOf v t <;> simp
  rw [hgen]
  exact List.length_replicate _ _

/-! ### Claim theorem: vectorization is presence-based -/

/-- C7: with a duplicate-free vocabulary, each column of a document's row is 1
exactly when that token occurs in the document (so two or more occurrences
still give 1, not the count), and out-of-vocabulary tokens contribute
nothing: the row is fully determined by which vocabulary tokens occur. -/
theorem vectorize_presence_idempotent (vocab : List Tok) (txt : List Nat)
    (hnd : vocab.Nodup) :
    (vectorRow vocab txt).length = vocab.length ∧
    ∀ j, j < vocab.length →
      ((vectorRow vocab txt).getD j 0 = if vocab.getD j [] ∈ tokenize txt then 1 else 0) ∧
      (2 ≤ occ (vocab.getD j []) (tokenize txt) → (vectorRow vocab txt).getD j 0 = 1) := by
  refine ⟨vectorRow_length vocab txt, fun j hj => ?_⟩
  have hchar : (vectorRow vocab txt).getD j 0 =
      if vocab.getD j [] ∈ tokenize txt then 1 else 0 := by
    rw [vectorRow, vectorRow_foldl_getD hnd hj _ _ (List.length_replicate _ _)]
    have hmm : vocab.getD j [] ∈ distinctTokens txt ↔ vocab.getD j [] ∈ tokenize txt := by
      rw [distinctTokens]
      exact mem_dedupF
    by_cases hmem : vocab.getD j [] ∈ tokenize txt
    · rw [if_pos (hmm.mpr hmem), if_pos hmem]
    · rw [if_neg (fun h => hmem (hmm.mp h)), if_neg hmem]
      exact getD_replicate_zero _ _
  refine ⟨hchar, fun h2 => ?_⟩
  rw [hchar, if_pos (occ_pos_mem (by omega))]

/-- Witness for C7: a vocabulary token occurring twice still yields entry 1. -/
theorem vectorize_presence_idempotent_witness :
    (vectorRow [strCodes "aa"] (strCodes "aa aa")).getD 0 0 = 1 :=
  ((vectorize_presence_idempotent [strCodes "aa"] (strCodes "aa aa") (by decide)).2 0
    (by decide)).2 (by decide)

/-! ### Lemmas about positions -/

lemma firstIdx_lt_of_pair_sublist {l : List Tok} (hnd : l.Nodup) {a b : Tok}
    (hab : List.Sublist [a, b] l) : firstIdx l a < firstIdx l b := by
  induction l with
  | nil =>
    rw [List.sublist_nil] at hab
    simp at hab
  | cons x xs ih =>
    rw [List.nodup_cons] at hnd
    cases hab with
    | cons _ h' =>
      have ha : a ∈ xs := h'.subset (List.mem_cons_self _ _)
      have hb : b ∈ xs := h'.subset (List.mem_cons_of_mem _ (List.mem_cons_self _ _))
      have hxa : ¬ x = a := fun h => hnd.1 (h ▸ ha)
      have hxb : ¬ x = b := fun h => hnd.1 (h ▸ hb)
      simp only [firstIdx]
      rw [if_neg hxa, if_neg hxb]
      have := ih hnd.2 h'
      omega
    | cons₂ _ h' =>
      have hb : b ∈ xs := h'.subset (List.mem_cons_self _ _)
      have hab' : ¬ a = b := fun h => hnd.1 (h ▸ hb)
      simp only [firstIdx]
      rw [if_neg hab']
      simp

lemma firstIdx_take : ∀ (l : List Tok) (n : Nat) (t : Tok), t ∈ l.take n →
    firstIdx (l.take n) t = firstIdx l t := by
  intro l
  induction l with
  | nil => intro n t h; simp at h
  | cons x xs ih =>
    intro n t h
    match n with
    | 0 => simp at h
    | n + 1 =>
      rw [List.take_succ_cons] at h ⊢
      by_cases hxt : x = t
      · simp only [firstIdx]
        rw [if_pos hxt, if_pos hxt]
      · simp only [firstIdx]
        rw [if_neg hxt, if_neg hxt, ih n t (by
          rcases List.mem_cons.mp h with h' | h'
          · exact absurd h'.symm hxt
          · exact h')]

lemma pair_sublist_exists {df : List (Tok × Nat)} {u v : Tok}
    (h : List.Sublist [u, v] (df.map Prod.fst)) :
    ∃ cu cv, List.Sublist [(u, cu), (v, cv)] df := by
  induction df with
  | nil => simp at h
  | cons p rest ih =>
    rw [List.map_cons] at h
    cases h with
    | cons _ h' =>
      obtain ⟨cu, cv, hs⟩ := ih h'
      exact ⟨cu, cv, hs.cons p⟩
    | cons₂ _ h' =>
      have hv : v ∈ rest.map Prod.fst := h'.subset (List.mem_cons_self _ _)
      obtain ⟨q, hq, hqv⟩ := List.mem_map.mp hv
      refine ⟨p.2, q.2, ?_⟩
      have hq2 : ((v, q.2) : Tok × Nat) = q := by rw [← hqv]
      have h1 : List.Sublist [(v, q.2)] rest := by
        rw [hq2]
        exact List.singleton_sublist.mpr hq
      exact h1.cons₂ (p.1, p.2)

/-! ### Claim theorems: determinism and tie order of `build_vocab` -/

/-- C10, counterexample: the per-document distinct-token collections
`{aa, bb}` enumerated in the two possible orders (both legitimate iterations
of the same Python set) produce different token-to-index mappings, so the
result of `build_vocab` depends on the unspecified set iteration order. -/
theorem build_vocab_order_dependent :
    List.Perm [strCodes "aa", strCodes "bb"] [strCodes "bb", strCodes "aa"] ∧
    ([strCodes "aa", strCodes "bb"] : List Tok).Nodup ∧
    ([strCodes "bb", strCodes "aa"] : List Tok).Nodup ∧
    build_vocabWith [[strCodes "aa", strCodes "bb"]] 1 30000 ≠
      build_vocabWith [[strCodes "bb", strCodes "aa"]] 1 30000 := by
  refine ⟨?_, by decide, by decide, by decide⟩
  exact List.Perm.swap (strCodes "bb") (strCodes "aa") []

/-- C10, amended: once the iteration order of each document's distinct-token
set is fixed (the `docSets` argument), `build_vocab` is a deterministic
function of it, and tokens of equal document frequency are retained in the
insertion order of the document-frequency dict (the stable sort preserves
it); that order need not be first appearance in the corpus text, since
Python's set order is unspecified. -/
theorem build_vocab_ties_follow_dict_order (docSets : List (List Tok)) (mdf mxv : Nat)
    (u v : Tok)
    (hu : u ∈ build_vocabWith docSets mdf mxv)
    (hv : v ∈ build_vocabWith docSets mdf mxv)
    (heq : lookupC (docFreqList docSets) u = lookupC (docFreqList docSets) v)
    (hord : List.Sublist [u, v] ((docFreqList docSets).map Prod.fst)) :
    firstIdx (build_vocabWith docSets mdf mxv) u <
      firstIdx (build_vocabWith docSets mdf mxv) v := by
  obtain ⟨hmdfu, hu_take⟩ := build_vocabWith_mem hu
  obtain ⟨hmdfv, hv_take⟩ := build_vocabWith_mem hv
  obtain ⟨cu, cv, hpair⟩ := pair_sublist_exists hord
  have hk := keysNodup_docFreqList docSets
  have hcu : cu = lookupC (docFreqList docSets) u :=
    (lookupC_of_mem hk (hpair.subset (List.mem_cons_self _ _))).symm
  have hcv : cv = lookupC (docFreqList docSets) v :=
    (lookupC_of_mem hk (hpair.subset (List.mem_cons_of_mem _ (List.mem_cons_self _ _)))).symm
  subst hcu
  subst hcv
  have hfilter : List.Sublist [(u, lookupC (docFreqList docSets) u),
      (v, lookupC (docFreqList docSets) v)]
      ((docFreqList docSets).filter (fun p => mdf ≤ p.2)) := by
    have h1 := hpair.filter (fun p => mdf ≤ p.2)
    have h2 : List.filter (fun p => decide (mdf ≤ p.2))
        [(u, lookupC (docFreqList docSets) u), (v, lookupC (docFreqList docSets) v)] =
        [(u, lookupC (docFreqList docSets) u), (v, lookupC (docFreqList docSets) v)] := by
      simp [hmdfu, hmdfv]
    rwa [h2] at h1
  have hsorted := sortDesc_stable (by simpa using heq) hfilter
  have hkeys : List.Sublist [u, v] ((sortDesc ((docFreqList docSets).filter
      (fun p => mdf ≤ p.2))).map Prod.fst) := by
    have h3 := hsorted.map Prod.fst
    simpa using h3
  have hnodup : ((sortDesc ((docFreqList docSets).filter
      (fun p => mdf ≤ p.2))).map Prod.fst).Nodup := by
    have hitems : (((docFreqList docSets).filter (fun p => mdf ≤ p.2)).map Prod.fst).Nodup :=
      hk.sublist ((List.filter_sublist _).map Prod.fst)
    exact (((sortDesc_perm ((docFreqList docSets).filter
      (fun p => mdf ≤ p.2))).map Prod.fst).nodup_iff).mpr hitems
  have hlt := firstIdx_lt_of_pair_sublist hnodup hkeys
  have humem : u ∈ (((sortDesc ((docFreqList docSets).filter
      (fun p => mdf ≤ p.2))).map Prod.fst).take mxv) := by
    rw [← List.map_take]
    exact List.mem_map.mpr ⟨(u, lookupC (docFreqList docSets) u), hu_take, rfl⟩
  have hvmem : v ∈ (((sortDesc ((docFreqList docSets).filter
      (fun p => mdf ≤ p.2))).map Prod.fst).take mxv) := by
    rw [← List.map_take]
    exact List.mem_map.mpr ⟨(v, lookupC (docFreqList docSets) v), hv_take, rfl⟩
  have hV : build_vocabWith docSets mdf mxv =
      ((sortDesc ((docFreqList docSets).filter
        (fun p => mdf ≤ p.2))).map Prod.fst).take mxv := by
    rw [build_vocabWith, List.map_take]
  rw [hV, firstIdx_take _ _ _ humem, firstIdx_take _ _ _ hvmem]
  exact hlt

/-- Witness for the amended C10 on a corpus with a document-frequency tie. -/
theorem build_vocab_ties_follow_dict_order_witness :
    firstIdx (build_vocabWith [[strCodes "aa"], [strCodes "aa", strCodes "bb"],
        [strCodes "bb"]] 1 5) (strCodes "aa") <
      firstIdx (build_vocabWith [[strCodes "aa"], [strCodes "aa", strCodes "bb"],
        [strCodes "bb"]] 1 5) (strCodes "bb") :=
  build_vocab_ties_follow_dict_order [[strCodes "aa"], [strCodes "aa", strCodes "bb"],
    [strCodes "bb"]] 1 5 (strCodes "aa") (strCodes "bb")
    (by decide) (by decide) (by decide) (by decide)
